import Mathlib

/-!
Shallow embedding of `tabref.py`, a script that numbers the citations of a
LaTeX deluxetable in order of appearance, rewrites the citation columns and
appends a reference footnote.  Text is modelled as `List Char`; each Python
string primitive used by the script gets a faithful executable model, and the
script's functions are translated one to one.  File input and output are
modelled by passing the list of input lines in and returning the output text:
the script computes everything before opening the output file, so a `none`
result models an aborted run with no output file written.
-/

/-- Text is modelled as a list of characters. -/
abbrev Str : Type := List Char

/-- Coerce a Lean string literal to the character-list model. -/
def str (s : String) : Str := s.data

/-- The character class stripped by Python's bare `rstrip()` / `lstrip()`. -/
def wsChars : List Char := [' ', '\t', '\n', '\x0b', '\x0c', '\r']

/-- Model of Python `s.split(sep)` for a one-character separator: splits at
every occurrence and keeps empty pieces, so the result is always nonempty. -/
def pySplitAux (sep : Char) : Str → Str → List Str
  | [], acc => [acc.reverse]
  | c :: cs, acc =>
    if c = sep then acc.reverse :: pySplitAux sep cs []
    else pySplitAux sep cs (c :: acc)

/-- Python `s.split(sep)`. -/
def pySplit (sep : Char) (s : Str) : List Str := pySplitAux sep s []

/-- Model of Python `s.rstrip(chars)`: removes every trailing character that
belongs to the set `cs` (Python treats the argument as a character set). -/
def pyRstrip (cs : List Char) (s : Str) : Str :=
  (s.reverse.dropWhile (fun c => cs.contains c)).reverse

/-- Model of Python `s.lstrip(chars)`. -/
def pyLstrip (cs : List Char) (s : Str) : Str :=
  s.dropWhile (fun c => cs.contains c)

/-- Index of the first occurrence of `c`, counting from `i`. -/
def pyIndexOfAux (c : Char) : Str → Nat → Option Nat
  | [], _ => none
  | d :: ds, i => if d = c then some i else pyIndexOfAux c ds (i + 1)

/-- Model of Python `s.index(c)`: `none` models the `ValueError` raised when
the character is absent. -/
def pyIndexOf (c : Char) (s : Str) : Option Nat := pyIndexOfAux c s 0

/-- Model of the Python slice `s[a:b]` for nonnegative bounds: out-of-range
bounds clamp and `a ≥ b` yields the empty string. -/
def pySlice (s : Str) (a b : Nat) : Str := (s.take b).drop a

/-- Test that `pat` is an initial segment of `s`. -/
def leadsWith : Str → Str → Bool
  | [], _ => true
  | _ :: _, [] => false
  | p :: ps, c :: cs => p == c && leadsWith ps cs

/-- Fuel-driven worker for `pyReplace`; the fuel is an upper bound on the
length of the remaining text, so the zero-fuel branch is never reached. -/
def pyReplaceFuel (pat rep : Str) : Nat → Str → Str
  | _, [] => if pat.length = 0 then rep else []
  | 0, c :: cs => c :: cs
  | fuel + 1, c :: cs =>
    if pat.length > 0 ∧ leadsWith pat (c :: cs) = true then
      rep ++ pyReplaceFuel pat rep fuel ((c :: cs).drop pat.length)
    else if pat.length = 0 then
      rep ++ c :: pyReplaceFuel pat rep fuel cs
    else
      c :: pyReplaceFuel pat rep fuel cs

/-- Model of Python `s.replace(pat, rep)`: replaces every non-overlapping
occurrence, scanning left to right. -/
def pyReplace (pat rep s : Str) : Str := pyReplaceFuel pat rep s.length s

/-- Test that `pat` occurs as a contiguous substring of `s`. -/
def hasSub (pat : Str) : Str → Bool
  | [] => leadsWith pat []
  | c :: cs => leadsWith pat (c :: cs) || hasSub pat cs

/-- Lexicographic comparison of strings by character code, the order Python
uses to compare `str` values. -/
def strLt : Str → Str → Bool
  | [], [] => false
  | [], _ :: _ => true
  | _ :: _, [] => false
  | a :: as, b :: bs =>
    if a.toNat < b.toNat then true
    else if b.toNat < a.toNat then false
    else strLt as bs

/-- Insert a string into an ascending list, used by `sortStrs`. -/
def insertStr (x : Str) : List Str → List Str
  | [] => [x]
  | y :: ys => if strLt y x = true then y :: insertStr x ys else x :: y :: ys

/-- Model of Python `sorted` on a list of strings. -/
def sortStrs : List Str → List Str
  | [] => []
  | x :: xs => insertStr x (sortStrs xs)

/-- Model of Python `str(n)` for a natural number. -/
def natToStr (n : Nat) : Str := (Nat.repr n).data

/-- Concatenation of a list of lists; models `''.join`, sequential `write`
calls, and the flattening of nested loops into one scan order. -/
def myJoin : List (List α) → List α
  | [] => []
  | x :: xs => x ++ myJoin xs

/-- Model of Python `sep.join(parts)`. -/
def joinWith (sep : Str) : List Str → Str
  | [] => []
  | [x] => x
  | x :: y :: xs => x ++ sep ++ joinWith sep (y :: xs)

/-- Mapping with failure over `Option`, written out so it unfolds by plain recursion: a
single failing element makes the whole computation fail, modelling an
uncaught Python exception inside a list comprehension. -/
def optMapList (f : α → Option β) : List α → Option (List β)
  | [] => some []
  | x :: xs =>
    match f x with
    | none => none
    | some y =>
      match optMapList f xs with
      | none => none
      | some ys => some (y :: ys)

/-- Membership test on the reference dictionary, modelling
`table_refs.has_key(item)`.  The dictionary is an association list in
insertion order; `create_ref_dict` never inserts a key twice, so keys are
unique and lookup by first match agrees with Python's dict. -/
def hasKey (d : List (Str × Nat)) (k : Str) : Bool :=
  d.any (fun p => p.1 == k)

/-- Lookup modelling `table_refs[r]`; the default is never used on the
pipeline's calls because every replaced key was previously inserted. -/
def dictGetD (d : List (Str × Nat)) (k : Str) (dflt : Nat) : Nat :=
  match d.find? (fun p => p.1 == k) with
  | some p => p.2
  | none => dflt

/-- One step of the inner loop of `create_ref_dict`: the state is the pair
of the accumulated dictionary and the counter `i`; an unseen item is bound
to the current counter, a seen item leaves the state unchanged. -/
def addItem (st : List (Str × Nat) × Nat) (item : Str) : List (Str × Nat) × Nat :=
  if hasKey st.1 item then st else (st.1 ++ [(item, st.2)], st.2 + 1)

/-- Model of `create_ref_dict(refs)`: three nested loops over lines, columns
and items, threading the module-global `table_refs` dictionary (passed here
explicitly) and a local counter that starts at 1 on every call. -/
def create_ref_dict (table_refs : List (Str × Nat)) (refs : List (List (List Str))) :
    List (Str × Nat) :=
  (refs.foldl (fun st line => line.foldl (fun st col => col.foldl addItem st) st)
    (table_refs, 1)).1

/-- Rank comparison used to model `sorted(table_refs.items(), key=lambda x: x[1])`. -/
def rankLe (a b : Str × Nat) : Prop := a.2 ≤ b.2

instance : DecidableRel rankLe := fun a b => Nat.decLe a.2 b.2

instance : IsTotal (Str × Nat) rankLe := ⟨fun a b => Nat.le_total a.2 b.2⟩

instance : IsTrans (Str × Nat) rankLe := ⟨fun _ _ _ h1 h2 => Nat.le_trans h1 h2⟩

/-- Model of Python's stable `sorted` by rank. -/
def sortByRank (l : List (Str × Nat)) : List (Str × Nat) := List.insertionSort rankLe l

/-- Model of `table_note_gen`: the Python function ignores its `refs`
parameter and reads the module-global `table_refs`, which is passed here
explicitly.  Each entry is formatted by `'(%s) \citet{%s}, '`, the pieces are
concatenated, the trailing `', '` is stripped and the result is wrapped in
the `\tablenotetext` template with an empty title argument. -/
def table_note_gen (table_refs : List (Str × Nat)) : Str :=
  str "\\tablenotetext\x7b\x7d\x7b\x7b\\bf References.\x7d " ++
    pyRstrip [',', ' ']
      (myJoin ((sortByRank table_refs).map
        (fun x => str "(" ++ natToStr x.2 ++ str ") \\citet\x7b" ++ x.1 ++ str "\x7d, "))) ++
    str "\x7d"

/-- The start-of-data marker line, newline included, exactly as `list.index`
compares it. -/
def startMarker : Str := str "\\startdata\n"

/-- The end-of-data marker line, newline included. -/
def endMarker : Str := str "\\enddata\n"

/-- Worker for `listIndex`, counting from `i`. -/
def listIndexAux (target : Str) : List Str → Nat → Option Nat
  | [], _ => none
  | l :: ls, i => if l == target then some i else listIndexAux target ls (i + 1)

/-- Model of Python `table.index(target)`: index of the first exact match,
`none` modelling the `ValueError` raised when the marker is absent. -/
def listIndex (table : List Str) (target : Str) : Option Nat :=
  listIndexAux target table 0

/-- Model of one comprehension element of
`x.rstrip('\n').rstrip().rstrip('\\\\').split('&')`: strip the newline, then
trailing whitespace, then trailing backslashes, then split on `&`. -/
def splitRow (x : Str) : List Str :=
  pySplit '&' (pyRstrip ['\\'] (pyRstrip wsChars (pyRstrip ['\n'] x)))

/-- The data rows: the lines of `table[start + 1 : end]`, each split into
fields by `splitRow`. -/
def dataOf (table : List Str) (s e : Nat) : List (List Str) :=
  ((table.take e).drop (s + 1)).map splitRow

/-- Model of the column selection: `cols = none` models the `'Last'` default,
which reads the field count of the first data row (`none` models the
`IndexError` on an empty data region); an explicit tuple is used as given. -/
def colOf (cols : Option (List Nat)) (data : List (List Str)) : Option (List Nat) :=
  match cols with
  | none =>
    match data.get? 0 with
    | some first => some [first.length - 1]
    | none => none
  | some cs => some cs

/-- Model of `x[c][x[c].index('{') + 1 : x[c].index('}')]`: the text of the
field strictly between the first `{` and the first `}`; `none` models the
`ValueError` raised when either brace character is absent. -/
def extract_cite (field : Str) : Option Str :=
  match pyIndexOf '\x7b' field, pyIndexOf '\x7d' field with
  | some i, some j => some (pySlice field (i + 1) j)
  | _, _ => none

/-- The extracted citation text of one row, one entry per selected column;
`none` models an `IndexError` on a missing column or a `ValueError` from
`extract_cite`. -/
def row_cites (row : List Str) (col : List Nat) : Option (List Str) :=
  optMapList (fun c =>
    match row.get? c with
    | some f => extract_cite f
    | none => none) col

/-- The `cites` comprehension over all data rows. -/
def citesOf (data : List (List Str)) (col : List Nat) : Option (List (List Str)) :=
  optMapList (fun row => row_cites row col) data

/-- Model of the wrapper-stripping chain
`.replace('\\citet{', '').replace('\\citep{', '').replace('\\cite{', '').replace('}', '')`. -/
def strip_wrappers (f : Str) : Str :=
  pyReplace (str "\x7d") []
    (pyReplace (str "\\cite\x7b") []
      (pyReplace (str "\\citep\x7b") []
        (pyReplace (str "\\citet\x7b") [] f)))

/-- Model of the replacement loop `for r in refs[i][j]`: each key of the
cell's citation set is replaced, over the whole field text, by the string
form of its dictionary rank. -/
def replace_keys (d : List (Str × Nat)) (ks : List Str) (field : Str) : Str :=
  ks.foldl (fun f r => pyReplace r (natToStr (dictGetD d r 0)) f) field

/-- Model of `', '.join(sorted(field.rstrip().lstrip().split(',')))`: the
whole field is stripped of leading and trailing whitespace, then split on
`,`, sorted as strings and rejoined. -/
def normalize_field (f : Str) : Str :=
  joinWith (str ", ") (sortStrs (pySplit ',' (pyLstrip wsChars (pyRstrip wsChars f))))

/-- The complete rewrite of one designated cell, in the source's order:
replace keys by ranks, strip the citation wrappers and closing braces, then
normalize. -/
def rewrite_field (d : List (Str × Nat)) (ks : List Str) (field : Str) : Str :=
  normalize_field (strip_wrappers (replace_keys d ks field))

/-- The inner rewrite loop over the selected columns of one row, paired with
that row's citation sets; `List.set` models the in-place assignment
`data[i][c] = ...` (the index is always in range because extraction already
read the same field). -/
def rewrite_row (d : List (Str × Nat)) : List (Nat × List Str) → List Str → List Str
  | [], row => row
  | (c, ks) :: rest, row =>
    rewrite_row d rest (row.set c (rewrite_field d ks (row.getD c [])))

/-- The outer rewrite loop over all rows. -/
def rewriteData (d : List (Str × Nat)) (col : List Nat) (refs : List (List (List Str)))
    (data : List (List Str)) : List (List Str) :=
  (data.zip refs).map (fun p => rewrite_row d (col.zip p.2) p.1)

/-- The row-writing loop of `write_to_file`: every row but the last gets the
continuation token `' \\'` appended, and every row gets a newline. -/
def writeRows : List Str → Str
  | [] => []
  | [x] => x ++ str "\n"
  | x :: y :: xs => x ++ str " \\\\\n" ++ writeRows (y :: xs)

/-- Model of `write_to_file`: the concatenation of everything the function
writes, in order: the lines up to and including the start marker, the
rewritten rows, `table[end] + '\n'`, `tablenote + '\n'`, and the lines after
the end marker. -/
def write_to_file (table : List Str) (data : List Str) (tablenote : Str)
    (start e : Nat) : Str :=
  myJoin (table.take (start + 1)) ++ writeRows data ++
    (table.getD e [] ++ str "\n") ++ (tablenote ++ str "\n") ++
    myJoin (table.drop (e + 1))

/-- The success path of `order_refs` after both markers were found and every
designated field yielded a citation set: build `refs`, extend the reference
dictionary, generate the footnote, rewrite the rows and emit the output
text; the final dictionary is returned alongside to model the module-global
`table_refs` after the call. -/
def buildOut (tr : List (Str × Nat)) (table : List Str) (s e : Nat)
    (col : List Nat) (cites : List (List Str)) : Str × List (Str × Nat) :=
  let refs := cites.map (fun row => row.map (pySplit ','))
  let d := create_ref_dict tr refs
  let tablenote := table_note_gen d
  let data2 := rewriteData d col refs (dataOf table s e)
  let data_new := data2.map (joinWith (str " & "))
  (write_to_file table data_new tablenote s e, d)

/-- Model of `order_refs(f, cols)`.  The input file is passed as its list of
lines (each line keeping its trailing newline, as `fileinput` yields them)
and the module-global `table_refs` is threaded explicitly as `tr`.  A `none`
result models a run aborted by an uncaught exception; because the Python
function only opens the output file in its final `write_to_file` call, a
`none` result is a run in which no output file was written. -/
def order_refs (tr : List (Str × Nat)) (table : List Str)
    (cols : Option (List Nat)) : Option (Str × List (Str × Nat)) :=
  match listIndex table startMarker with
  | none => none
  | some s =>
    match listIndex table endMarker with
    | none => none
    | some e =>
      match colOf cols (dataOf table s e) with
      | none => none
      | some col =>
        match citesOf (dataOf table s e) col with
        | none => none
        | some cites => some (buildOut tr table s e col cites)

/-- The output text of a run, when one was produced. -/
def outOf (o : Option (Str × List (Str × Nat))) : Option Str :=
  o.map (fun p => p.1)

/-- The state of the module-global `table_refs` after a run (unchanged empty
state if the run aborted before `create_ref_dict`). -/
def refsOut (o : Option (Str × List (Str × Nat))) : List (Str × Nat) :=
  match o with
  | some p => p.2
  | none => []

/-- The two Python exceptions the `__main__` block can raise. -/
inductive PyExc where
  | indexError : PyExc
  | typeError : PyExc
deriving DecidableEq

/-- Model of the `if __name__ == '__main__'` block.  With `n_args < 2` it
evaluates `sys.argv[1]`, which does not exist, so it raises `IndexError`;
otherwise it evaluates `[float(sys.argv[i]) for i in n_args if i > 1]`,
which iterates over the integer `n_args` and raises `TypeError` before any
call to `order_refs`.  A successful outcome would carry the file argument
and the column selection passed on to `order_refs`. -/
def mainDispatch (argv : List Str) : Except PyExc (Str × Option (List Nat)) :=
  if argv.length < 2 then
    match argv.get? 1 with
    | some f => Except.ok (f, none)
    | none => Except.error PyExc.indexError
  else
    Except.error PyExc.typeError

/-- One step of first-appearance deduplication: a key is appended only when
it has not been seen yet. -/
def seenStep (acc : List Str) (k : Str) : List Str :=
  if acc.any (fun a => a == k) then acc else acc ++ [k]

/-- The distinct keys of a list in order of first appearance. -/
def dedupFirst (l : List Str) : List Str := l.foldl seenStep []

/-- The scan order of `create_ref_dict`: rows top to bottom, then columns in
the given order within a row, then the items of one citation set. -/
def scanOrder (refs : List (List (List Str))) : List Str := myJoin (myJoin refs)

/-- The ranks `s, s + 1, ..., s + n - 1`. -/
def rankRange : Nat → Nat → List Nat
  | _, 0 => []
  | s, n + 1 => s :: rankRange (s + 1) n

/-- Claim-side rendering of one footnote entry as the code produces it:
`(rank) \citet{key}`. -/
def entryStr (x : Str × Nat) : Str :=
  str "(" ++ natToStr x.2 ++ str ") \\citet\x7b" ++ x.1 ++ str "\x7d"

/-- Modelled from the words of claim C3, as a refinement reference (not from
the source): replace keys by ranks, strip the wrappers, split on `,`, trim
whitespace from each resulting token, sort the tokens as strings, rejoin
with `, `. -/
def rewrite_field_claim (d : List (Str × Nat)) (ks : List Str) (field : Str) : Str :=
  joinWith (str ", ")
    (sortStrs ((pySplit ',' (strip_wrappers (replace_keys d ks field))).map
      (fun t => pyLstrip wsChars (pyRstrip wsChars t))))

/-- Modelled from the words of the amended claim C3: the whole remaining
field is trimmed of leading and trailing whitespace once, before the split,
and the tokens are not trimmed individually. -/
def rewrite_field_amended (d : List (Str × Nat)) (ks : List Str) (field : Str) : Str :=
  joinWith (str ", ")
    (sortStrs (pySplit ','
      (pyLstrip wsChars (pyRstrip wsChars (strip_wrappers (replace_keys d ks field))))))

/-- Modelled from the words of claim C4, as a refinement reference (not from
the source): prefix lines unchanged through the start marker, the rewritten
rows with continuation tokens, the end marker line, the footnote line, and
the suffix lines unchanged — with no extra blank line. -/
def write_to_file_claim (table : List Str) (data : List Str) (tablenote : Str)
    (start e : Nat) : Str :=
  myJoin (table.take (start + 1)) ++ writeRows data ++ table.getD e [] ++
    (tablenote ++ str "\n") ++ myJoin (table.drop (e + 1))

/-- A one-row table used by the C7 scenario. -/
def tabT1 : List Str :=
  [str "\\startdata\n", str "x & \\citet\x7bA\x7d\n", str "\\enddata\n"]

/-- A two-row table used by the C7 scenario. -/
def tabT2 : List Str :=
  [str "\\startdata\n", str "x & \\citet\x7bA\x7d\n", str "y & \\citet\x7bB\x7d\n",
   str "\\enddata\n"]

/-- A one-row table with a trailing line, used by the C4 counterexample. -/
def tabT3 : List Str :=
  [str "\\startdata\n", str "a & \\citet\x7bX\x7d\n", str "\\enddata\n", str "end\n"]

/-- A table whose end-of-data marker is missing, used by the C5 witness. -/
def tabT4 : List Str := [str "\\startdata\n", str "x & \\citet\x7bA\x7d\n"]

lemma take_len_append (l₁ l₂ : List α) : (l₁ ++ l₂).take l₁.length = l₁ := by
  induction l₁ with
  | nil => rfl
  | cons a t ih =>
    show a :: (t ++ l₂).take t.length = a :: t
    rw [ih]

lemma drop_len_append (l₁ l₂ : List α) : (l₁ ++ l₂).drop l₁.length = l₂ := by
  induction l₁ with
  | nil => rfl
  | cons a t ih => exact ih

lemma zip_append_len (l₁ : List α) (r₁ : List β) (l₂ : List α) (r₂ : List β)
    (h : l₁.length = r₁.length) :
    (l₁ ++ l₂).zip (r₁ ++ r₂) = l₁.zip r₁ ++ l₂.zip r₂ := by
  induction l₁ generalizing r₁ with
  | nil =>
    cases r₁ with
    | nil => rfl
    | cons b t => simp at h
  | cons a t ih =>
    cases r₁ with
    | nil => simp at h
    | cons b t' =>
      simp only [List.cons_append, List.zip_cons_cons, ih t' (by simpa using h)]

lemma rankRange_length (n s : Nat) : (rankRange s n).length = n := by
  induction n generalizing s with
  | zero => rfl
  | succ n ih => simp [rankRange, ih]

lemma rankRange_snoc (n s : Nat) : rankRange s (n + 1) = rankRange s n ++ [s + n] := by
  induction n generalizing s with
  | zero => simp [rankRange]
  | succ n ih =>
    have hc : s + 1 + n = s + (n + 1) := by omega
    show s :: rankRange (s + 1) (n + 1) = s :: rankRange (s + 1) n ++ [s + (n + 1)]
    rw [ih, hc]
    rfl

lemma myJoin_append (a b : List (List α)) : myJoin (a ++ b) = myJoin a ++ myJoin b := by
  induction a with
  | nil => rfl
  | cons x t ih => simp [myJoin, ih, List.append_assoc]

lemma colsFold_eq (line : List (List Str)) (st : List (Str × Nat) × Nat) :
    line.foldl (fun st col => col.foldl addItem st) st = (myJoin line).foldl addItem st := by
  induction line generalizing st with
  | nil => rfl
  | cons c t ih =>
    show t.foldl _ (c.foldl addItem st) = (c ++ myJoin t).foldl addItem st
    rw [List.foldl_append]
    exact ih _

lemma linesFold_eq (refs : List (List (List Str))) (st : List (Str × Nat) × Nat) :
    refs.foldl (fun st line => line.foldl (fun st col => col.foldl addItem st) st) st
      = (scanOrder refs).foldl addItem st := by
  induction refs generalizing st with
  | nil => rfl
  | cons line t ih =>
    have h1 : scanOrder (line :: t) = myJoin line ++ scanOrder t := by
      show myJoin (line ++ myJoin t) = _
      rw [myJoin_append]
      rfl
    show t.foldl _ (line.foldl (fun st col => col.foldl addItem st) st) = _
    rw [h1, List.foldl_append, ih, colsFold_eq]

lemma hasKey_zip (acc : List Str) (s : Nat) (k : Str) :
    hasKey (acc.zip (rankRange s acc.length)) k = acc.any (fun a => a == k) := by
  induction acc generalizing s with
  | nil => rfl
  | cons a t ih =>
    show ((a == k) || hasKey (t.zip (rankRange (s + 1) t.length)) k)
        = ((a == k) || t.any (fun x => x == k))
    rw [ih]

lemma foldl_addItem_inv (L : List Str) : ∀ acc : List Str,
    L.foldl addItem (acc.zip (rankRange 1 acc.length), acc.length + 1)
      = ((L.foldl seenStep acc).zip (rankRange 1 (L.foldl seenStep acc).length),
         (L.foldl seenStep acc).length + 1) := by
  induction L with
  | nil => intro acc; rfl
  | cons k L' ih =>
    intro acc
    rw [List.foldl_cons, List.foldl_cons]
    by_cases h : acc.any (fun a => a == k) = true
    · have h1 : addItem (acc.zip (rankRange 1 acc.length), acc.length + 1) k
          = (acc.zip (rankRange 1 acc.length), acc.length + 1) := by
        unfold addItem
        rw [hasKey_zip, h]
        simp
      have h2 : seenStep acc k = acc := by
        unfold seenStep
        rw [h]
        simp
      rw [h1, h2]
      exact ih acc
    · have hb : acc.any (fun a => a == k) = false := by
        rw [← Bool.not_eq_true]
        exact h
      have h1 : addItem (acc.zip (rankRange 1 acc.length), acc.length + 1) k
          = ((acc ++ [k]).zip (rankRange 1 (acc ++ [k]).length), (acc ++ [k]).length + 1) := by
        have hlen : acc.length = (rankRange 1 acc.length).length :=
          (rankRange_length _ _).symm
        unfold addItem
        rw [hasKey_zip, hb]
        simp only [Bool.false_eq_true, if_false, List.length_append, List.length_cons,
          List.length_nil, Nat.zero_add]
        rw [rankRange_snoc, zip_append_len _ _ _ _ hlen]
        have hc : 1 + acc.length = acc.length + 1 := by omega
        rw [hc]
        rfl
      have h2 : seenStep acc k = acc ++ [k] := by
        unfold seenStep
        rw [hb]
        simp
      rw [h1, h2]
      exact ih (acc ++ [k])

/-- Claim C1: starting from an empty reference mapping, `create_ref_dict`
assigns each distinct citation key of the scan (rows top to bottom, columns
in the given order within a row) a rank fixed by its first appearance, the
ranks being exactly the contiguous sequence `1..K` for the `K` distinct
keys, repeated keys getting no new rank: the resulting dictionary is
exactly the first-appearance key list zipped with `1..K`. -/
theorem c1_ranks_first_appearance (refs : List (List (List Str))) :
    create_ref_dict [] refs
      = (dedupFirst (scanOrder refs)).zip
          (rankRange 1 (dedupFirst (scanOrder refs)).length) := by
  show (refs.foldl _ ([], 1)).1 = _
  rw [linesFold_eq]
  have h0 : (([], 1) : List (Str × Nat) × Nat)
      = (([] : List Str).zip (rankRange 1 ([] : List Str).length),
         ([] : List Str).length + 1) := rfl
  rw [h0, foldl_addItem_inv (scanOrder refs) []]
  rfl

lemma foldl_addItem_extends (L : List Str) : ∀ st : List (Str × Nat) × Nat,
    ∃ ext, (L.foldl addItem st).1 = st.1 ++ ext := by
  induction L with
  | nil => intro st; exact ⟨[], by simp⟩
  | cons k L' ih =>
    intro st
    rw [List.foldl_cons]
    rcases ih (addItem st k) with ⟨ext, hext⟩
    by_cases h : hasKey st.1 k = true
    · have ha : (addItem st k).1 = st.1 := by unfold addItem; rw [if_pos h]
      refine ⟨ext, ?_⟩
      rw [hext, ha]
    · have ha : (addItem st k).1 = st.1 ++ [(k, st.2)] := by
        unfold addItem
        rw [if_neg h]
      refine ⟨(k, st.2) :: ext, ?_⟩
      rw [hext, ha]
      simp

lemma create_ref_dict_extends (tr : List (Str × Nat)) (refs : List (List (List Str))) :
    ∃ ext, create_ref_dict tr refs = tr ++ ext := by
  show ∃ ext, (refs.foldl _ (tr, 1)).1 = tr ++ ext
  rw [linesFold_eq]
  exact foldl_addItem_extends (scanOrder refs) (tr, 1)

/-- Claim C7 counterexample: running `order_refs` on `tabT1` and then, with
the accumulated module-global dictionary, on `tabT2` yields a different
reference numbering for `tabT2` than a fresh run does (the key `B` gets rank
1 instead of 2), so the second call is not independent of the first. -/
theorem c7_counterexample :
    refsOut (order_refs (refsOut (order_refs [] tabT1 none)) tabT2 none)
      ≠ refsOut (order_refs [] tabT2 none) := by
  decide

/-- Claim C7 (amended): the ReferenceIndex is process-wide state rather than
freshly created per invocation: `create_ref_dict` only ever appends to the
dictionary it is given, so entries from earlier calls persist, and because
the counter restarts at 1 the new keys of a later call collide with the
earlier ranks; concretely, after a run on `tabT1`, a run on `tabT2` maps
both `A` and `B` to rank 1. -/
theorem c7_amended :
    (∀ (tr : List (Str × Nat)) (refs : List (List (List Str))),
      ∃ ext, create_ref_dict tr refs = tr ++ ext)
    ∧ refsOut (order_refs (refsOut (order_refs [] tabT1 none)) tabT2 none)
        = [(str "A", 1), (str "B", 1)] :=
  ⟨create_ref_dict_extends, by decide⟩

/-- Claim C8: the command-line block never runs the conversion: for every
argument vector it raises an exception — `IndexError` when fewer than two
arguments are present (the branch reads `sys.argv[1]`), and `TypeError`
otherwise (the branch iterates over the integer `n_args`); in particular
the documented invocation `python tabref.py table.tex` fails. -/
theorem c8_cli_always_fails :
    (∀ argv : List Str, ∃ e, mainDispatch argv = Except.error e)
    ∧ mainDispatch [str "tabref.py", str "table.tex"] = Except.error PyExc.typeError
    ∧ mainDispatch [str "tabref.py"] = Except.error PyExc.indexError := by
  refine ⟨?_, rfl, rfl⟩
  intro argv
  match argv with
  | [] => exact ⟨PyExc.indexError, rfl⟩
  | [a] => exact ⟨PyExc.indexError, rfl⟩
  | a :: b :: rest =>
    refine ⟨PyExc.typeError, ?_⟩
    unfold mainDispatch
    rw [if_neg (by simp only [List.length_cons]; omega)]

/-- Claim C9: when no column selection is supplied, the designated citation
columns default to exactly one column, the last field index of the first
data row (its field count minus one); the same single-column list is then
used for every row. -/
theorem c9_default_last_column (data : List (List Str)) (first : List Str)
    (h : data.get? 0 = some first) :
    colOf none data = some [first.length - 1] := by
  unfold colOf
  rw [h]

theorem c9_default_last_column_witness :
    ([[str "a", str "b", str "c"]] : List (List Str)).get? 0
        = some [str "a", str "b", str "c"]
    ∧ colOf none [[str "a", str "b", str "c"]] = some [2] :=
  ⟨rfl, c9_default_last_column [[str "a", str "b", str "c"]] [str "a", str "b", str "c"] rfl⟩

lemma brace_comma_split : str "\x7d, " = str "\x7d" ++ str ", " := rfl

lemma fmt_eq :
    (fun x : Str × Nat => str "(" ++ natToStr x.2 ++ str ") \\citet\x7b" ++ x.1 ++ str "\x7d, ")
      = fun x => entryStr x ++ str ", " := by
  funext x
  simp [entryStr, brace_comma_split, List.append_assoc]

lemma entryStr_snoc (x : Str × Nat) :
    entryStr x = (str "(" ++ (natToStr x.2 ++ (str ") \\citet\x7b" ++ x.1))) ++ ['\x7d'] := by
  have hb : str "\x7d" = ['\x7d'] := rfl
  unfold entryStr
  rw [← hb]
  simp [List.append_assoc]

lemma entryStr_cons (x : Str × Nat) :
    entryStr x = '(' :: (natToStr x.2 ++ str ") \\citet\x7b" ++ x.1 ++ str "\x7d") := rfl

lemma dropWhile_append_ne (p : Char → Bool) (xs ys : List Char) (h : xs.dropWhile p ≠ []) :
    (xs ++ ys).dropWhile p = xs.dropWhile p ++ ys := by
  induction xs with
  | nil => simp at h
  | cons a t ih =>
    by_cases hp : p a = true
    · rw [List.dropWhile_cons, if_pos hp] at h
      rw [List.cons_append, List.dropWhile_cons, if_pos hp, List.dropWhile_cons, if_pos hp]
      exact ih h
    · rw [List.cons_append, List.dropWhile_cons, if_neg hp, List.dropWhile_cons, if_neg hp]
      rfl

lemma pyRstrip_append (cs : List Char) (a b : Str) (h : pyRstrip cs b ≠ []) :
    pyRstrip cs (a ++ b) = a ++ pyRstrip cs b := by
  unfold pyRstrip at *
  have hb : b.reverse.dropWhile (fun c => cs.contains c) ≠ [] := by
    intro hnil
    rw [hnil] at h
    simp at h
  rw [List.reverse_append, dropWhile_append_ne _ _ _ hb, List.reverse_append,
    List.reverse_reverse]

lemma pyRstrip_entry_tail (x : Str) :
    pyRstrip [',', ' '] ((x ++ ['\x7d']) ++ [',', ' ']) = x ++ ['\x7d'] := by
  unfold pyRstrip
  have e1 : ((x ++ ['\x7d']) ++ [',', ' ']).reverse = ' ' :: ',' :: '\x7d' :: x.reverse := by
    simp [List.reverse_append]
  rw [e1]
  show ('\x7d' :: x.reverse).reverse = x ++ ['\x7d']
  simp

lemma joinWith_cons_shape (sep : Str) (a : Str) (as : List Str) :
    ∃ t, joinWith sep (a :: as) = a ++ t := by
  cases as with
  | nil => exact ⟨[], by simp [joinWith]⟩
  | cons b bs => exact ⟨sep ++ joinWith sep (b :: bs), by simp [joinWith, List.append_assoc]⟩

lemma joinWith_entry_ne_nil (y : Str × Nat) (rest : List (Str × Nat)) :
    joinWith (str ", ") ((y :: rest).map entryStr) ≠ [] := by
  rcases joinWith_cons_shape (str ", ") (entryStr y) (rest.map entryStr) with ⟨t, ht⟩
  rw [List.map_cons, ht, entryStr_cons]
  simp

lemma rstrip_join_entries (l : List (Str × Nat)) :
    pyRstrip [',', ' '] (myJoin (l.map (fun x => entryStr x ++ str ", ")))
      = joinWith (str ", ") (l.map entryStr) := by
  induction l with
  | nil => rfl
  | cons x rest ih =>
    cases rest with
    | nil =>
      show pyRstrip [',', ' '] ((entryStr x ++ str ", ") ++ myJoin []) = entryStr x
      rw [show myJoin ([] : List Str) = [] from rfl, List.append_nil, entryStr_snoc x]
      have hcomma : str ", " = [',', ' '] := rfl
      rw [hcomma, pyRstrip_entry_tail]
    | cons y rest' =>
      have hne : pyRstrip [',', ' ']
          (myJoin ((y :: rest').map (fun x => entryStr x ++ str ", "))) ≠ [] := by
        rw [ih]
        exact joinWith_entry_ne_nil y rest'
      have hstep : myJoin ((x :: y :: rest').map (fun x => entryStr x ++ str ", "))
          = (entryStr x ++ str ", ") ++
            myJoin ((y :: rest').map (fun x => entryStr x ++ str ", ")) := rfl
      rw [hstep, pyRstrip_append _ _ _ hne, ih]
      rfl

lemma table_note_gen_eq (d : List (Str × Nat)) :
    table_note_gen d = str "\\tablenotetext\x7b\x7d\x7b\x7b\\bf References.\x7d "
      ++ joinWith (str ", ") ((sortByRank d).map entryStr) ++ str "\x7d" := by
  unfold table_note_gen
  rw [fmt_eq, rstrip_join_entries]

/-- Claim C2 counterexample: with SmithA at rank 1 and JonesB at rank 2 the
generated footnote is not the string the claim demands — the code wraps each
key in `\citet{...}` instead of rendering a bare `(rank) key` pair. -/
theorem c2_counterexample :
    table_note_gen [(str "SmithA", 1), (str "JonesB", 2)]
      ≠ str "\\tablenotetext\x7b\x7d\x7b\x7b\\bf References.\x7d (1) SmithA, (2) JonesB\x7d" := by
  decide

/-- Claim C2 (amended): for every final ReferenceIndex the generated
footnote is a single string whose entries are sorted by rank ascending,
each rendered as `(rank) \citet{key}`, joined with `, `, and wrapped in the
fixed footnote macro with an empty title argument; in particular, for keys
SmithA with rank 1 and JonesB with rank 2 the footnote equals
`\tablenotetext{}{{\bf References.} (1) \citet{SmithA}, (2) \citet{JonesB}}`. -/
theorem c2_amended :
    (∀ d : List (Str × Nat),
      table_note_gen d = str "\\tablenotetext\x7b\x7d\x7b\x7b\\bf References.\x7d "
          ++ joinWith (str ", ") ((sortByRank d).map entryStr) ++ str "\x7d"
        ∧ (sortByRank d).Sorted rankLe)
    ∧ table_note_gen [(str "SmithA", 1), (str "JonesB", 2)]
        = str "\\tablenotetext\x7b\x7d\x7b\x7b\\bf References.\x7d (1) \\citet\x7bSmithA\x7d, (2) \\citet\x7bJonesB\x7d\x7d" := by
  refine ⟨fun d => ⟨table_note_gen_eq d, ?_⟩, by decide⟩
  exact List.sorted_insertionSort rankLe d

/-- Claim C3 counterexample: in the cell `\citet{A}, \citet{B}` with the
single extracted key `A` at rank 1 (the extractor only reads the first brace
group), the code's rewrite leaves the token ` B` with its leading space —
the field is trimmed as a whole before the split, not token by token — and
the untrimmed space changes the string sort, giving ` B, 1` where the
claim's per-token trimming would give `1, B`. -/
theorem c3_counterexample :
    rewrite_field [(str "A", 1)] [str "A"] (str "\\citet\x7bA\x7d, \\citet\x7bB\x7d")
        = str " B, 1"
    ∧ rewrite_field_claim [(str "A", 1)] [str "A"] (str "\\citet\x7bA\x7d, \\citet\x7bB\x7d")
        = str "1, B"
    ∧ rewrite_field [(str "A", 1)] [str "A"] (str "\\citet\x7bA\x7d, \\citet\x7bB\x7d")
        ≠ rewrite_field_claim [(str "A", 1)] [str "A"] (str "\\citet\x7bA\x7d, \\citet\x7bB\x7d") :=
  ⟨by decide, by decide, by decide⟩

/-- Claim C3 (amended): for every row and designated column, the cell
rewrite replaces each citation key with the string form of its rank, strips
the wrapper tokens `\citet{`, `\citep{`, `\cite{` and the closing brace,
trims whitespace from the two ends of the whole remaining field (not from
each token), splits on `,`, sorts the resulting tokens as strings (lexically,
not numerically) and rejoins them with `, `; in particular `\citep{A,B}`
with A mapped to 3 and B mapped to 4 rewrites to `3, 4`, and ranks 9 and 10
sort lexically to `10, 9`. -/
theorem c3_amended :
    (∀ (d : List (Str × Nat)) (ks : List Str) (f : Str),
      rewrite_field d ks f = rewrite_field_amended d ks f)
    ∧ rewrite_field [(str "A", 3), (str "B", 4)] [str "A", str "B"]
        (str "\\citep\x7bA,B\x7d") = str "3, 4"
    ∧ rewrite_field [(str "X", 9), (str "Y", 10)] [str "X", str "Y"]
        (str "\\citep\x7bX,Y\x7d") = str "10, 9" :=
  ⟨fun _ _ _ => rfl, by decide, by decide⟩

/-- Claim C4 counterexample: on the well-formed table `tabT3` the produced
document is not the exact concatenation the claim describes: the writer
emits `table[end] + '\n'`, and the end-marker line already ends in a
newline, so an extra blank line appears between the end marker and the
footnote line. -/
theorem c4_counterexample :
    outOf (order_refs [] tabT3 none)
        = some (str "\\startdata\na  & 1\n\\enddata\n\n\\tablenotetext\x7b\x7d\x7b\x7b\\bf References.\x7d (1) \\citet\x7bX\x7d\x7d\nend\n")
    ∧ outOf (order_refs [] tabT3 none)
        ≠ some (write_to_file_claim tabT3 [str "a  & 1"]
            (table_note_gen [(str "X", 1)]) 0 2) :=
  ⟨by decide, by decide⟩

/-- Claim C4 (amended): for every input whose end-marker line is the literal
`\enddata` line, the output document is exactly: all lines up to and
including the start marker unchanged, each rewritten row joined with the
field separator with a row-continuation token appended to every row except
the last, the end marker line followed by one extra empty line (the writer
appends a newline to a line that already ends in one), the footnote line,
and all lines after the end marker unchanged. -/
theorem c4_amended (table : List Str) (data : List Str) (note : Str) (s e : Nat)
    (h : table.getD e [] = str "\\enddata\n") :
    write_to_file table data note s e
      = myJoin (table.take (s + 1)) ++ writeRows data ++
        (str "\\enddata\n" ++ str "\n") ++ (note ++ str "\n") ++
        myJoin (table.drop (e + 1)) := by
  unfold write_to_file
  rw [h]

theorem c4_amended_witness :
    tabT3.getD 2 [] = str "\\enddata\n"
    ∧ write_to_file tabT3 [str "r1", str "r2"] (str "N") 0 2
      = myJoin (tabT3.take (0 + 1)) ++ writeRows [str "r1", str "r2"] ++
        (str "\\enddata\n" ++ str "\n") ++ (str "N" ++ str "\n") ++
        myJoin (tabT3.drop (2 + 1)) :=
  ⟨by decide, c4_amended tabT3 [str "r1", str "r2"] (str "N") 0 2 (by decide)⟩

lemma pyIndexOfAux_none_iff (c : Char) (s : Str) : ∀ i, (pyIndexOfAux c s i = none ↔ c ∉ s) := by
  induction s with
  | nil => intro i; simp [pyIndexOfAux]
  | cons d ds ih =>
    intro i
    by_cases h : d = c
    · subst h
      simp [pyIndexOfAux]
    · show (if d = c then some i else pyIndexOfAux c ds (i + 1)) = none ↔ c ∉ d :: ds
      rw [if_neg h, ih (i + 1)]
      constructor
      · intro hnot hmem
        rcases List.mem_cons.mp hmem with h1 | h1
        · exact h h1.symm
        · exact hnot h1
      · intro hnot hmem
        exact hnot (List.mem_cons_of_mem d hmem)

lemma pyIndexOf_none_iff (c : Char) (s : Str) : pyIndexOf c s = none ↔ c ∉ s :=
  pyIndexOfAux_none_iff c s 0

lemma pyIndexOfAux_append (c : Char) (r : Str) : ∀ (a : Str) (i : Nat), c ∉ a →
    pyIndexOfAux c (a ++ c :: r) i = some (i + a.length) := by
  intro a
  induction a with
  | nil =>
    intro i _
    simp [pyIndexOfAux]
  | cons d ds ih =>
    intro i h
    have hd : ¬(d = c) := fun he => h (List.mem_cons.mpr (Or.inl he.symm))
    show (if d = c then some i else pyIndexOfAux c (ds ++ c :: r) (i + 1))
        = some (i + (d :: ds).length)
    rw [if_neg hd, ih (i + 1) (fun hm => h (List.mem_cons_of_mem d hm))]
    congr 1
    simp only [List.length_cons]
    omega

lemma extract_none_iff (f : Str) :
    extract_cite f = none ↔ ('\x7b' ∉ f ∨ '\x7d' ∉ f) := by
  unfold extract_cite
  cases h1 : pyIndexOf '\x7b' f with
  | none =>
    simp only [h1]
    constructor
    · intro _
      exact Or.inl ((pyIndexOf_none_iff '\x7b' f).mp h1)
    · intro _
      trivial
  | some i =>
    cases h2 : pyIndexOf '\x7d' f with
    | none =>
      simp only [h1, h2]
      constructor
      · intro _
        exact Or.inr ((pyIndexOf_none_iff '\x7d' f).mp h2)
      · intro _
        trivial
    | some j =>
      simp only [h1, h2]
      constructor
      · intro hs
        exact absurd hs (by simp)
      · rintro (hm | hm)
        · have hn := (pyIndexOf_none_iff '\x7b' f).mpr hm
          rw [h1] at hn
          exact absurd hn (by simp)
        · have hn := (pyIndexOf_none_iff '\x7d' f).mpr hm
          rw [h2] at hn
          exact absurd hn (by simp)

lemma extract_cite_append (a b c : Str) (h1 : '\x7b' ∉ a) (h2 : '\x7d' ∉ a ++ '\x7b' :: b) :
    extract_cite (a ++ '\x7b' :: b ++ '\x7d' :: c) = some b := by
  have hassoc : a ++ '\x7b' :: (b ++ '\x7d' :: c) = (a ++ '\x7b' :: b) ++ '\x7d' :: c := by
    simp [List.append_assoc]
  have e1 : pyIndexOf '\x7b' (a ++ '\x7b' :: (b ++ '\x7d' :: c)) = some a.length := by
    have h := pyIndexOfAux_append '\x7b' (b ++ '\x7d' :: c) a 0 h1
    simpa using h
  have e2 : pyIndexOf '\x7d' (a ++ '\x7b' :: (b ++ '\x7d' :: c))
      = some (a ++ '\x7b' :: b).length := by
    rw [hassoc]
    have h := pyIndexOfAux_append '\x7d' c (a ++ '\x7b' :: b) 0 h2
    simpa using h
  have e3 : pySlice (a ++ '\x7b' :: (b ++ '\x7d' :: c)) (a.length + 1)
      (a ++ '\x7b' :: b).length = b := by
    unfold pySlice
    rw [hassoc, take_len_append]
    have hassoc2 : a ++ '\x7b' :: b = (a ++ ['\x7b']) ++ b := by simp
    have hlen : a.length + 1 = (a ++ ['\x7b']).length := by simp
    rw [hassoc2, hlen, drop_len_append]
  unfold extract_cite
  rw [← hassoc, e1, e2]
  show some (pySlice (a ++ '\x7b' :: (b ++ '\x7d' :: c)) (a.length + 1)
      (a ++ '\x7b' :: b).length) = some b
  rw [e3]

lemma optMapList_eq_none (g : α → Option β) (l : List α) (x : α)
    (hx : x ∈ l) (hg : g x = none) : optMapList g l = none := by
  induction l with
  | nil => cases hx
  | cons a t ih =>
    rcases List.mem_cons.mp hx with h | h
    · subst h
      simp only [optMapList, hg]
    · cases hga : g a with
      | none => simp only [optMapList, hga]
      | some y => simp only [optMapList, hga, ih h]

/-- Claim C6: for every field, the citation extraction fails exactly when
the field is missing a `{` or a `}` character (the index lookups on both
braces are what can fail), and when the field has the shape
`a{b}c` with no `{` before the shown one and no `}` before the shown one,
the extracted text is exactly `b`, the substring strictly between the first
`{` and the first `}` (the pipeline then splits it on `,` to form the
CitationSet). -/
theorem c6_extract_between_first_braces :
    (∀ field : Str, extract_cite field = none ↔ ('\x7b' ∉ field ∨ '\x7d' ∉ field))
    ∧ (∀ a b c : Str, '\x7b' ∉ a → '\x7d' ∉ a ++ '\x7b' :: b →
        extract_cite (a ++ '\x7b' :: b ++ '\x7d' :: c) = some b) :=
  ⟨extract_none_iff, extract_cite_append⟩

theorem c6_extract_between_first_braces_witness :
    ('\x7b' ∉ str "ab" ∧ '\x7d' ∉ str "ab" ++ '\x7b' :: str "Key")
    ∧ extract_cite (str "ab" ++ '\x7b' :: str "Key" ++ '\x7d' :: str "tl")
        = some (str "Key") :=
  ⟨⟨by decide, by decide⟩,
    c6_extract_between_first_braces.2 (str "ab") (str "Key") (str "tl")
      (by decide) (by decide)⟩

/-- Claim C5: whenever the start marker is absent, or the end marker is
absent, or some designated field of some data row is missing a brace
character, the run fails and produces no output: `order_refs` returns
`none`, and in the source the output file is only opened by the final
`write_to_file` call, after all of these checks have already passed, so an
aborted run writes nothing. -/
theorem c5_abort_no_output (tr : List (Str × Nat)) (table : List Str)
    (cols : Option (List Nat))
    (h : listIndex table startMarker = none ∨ listIndex table endMarker = none ∨
      ∃ s e col row c f, listIndex table startMarker = some s ∧
        listIndex table endMarker = some e ∧
        colOf cols (dataOf table s e) = some col ∧ row ∈ dataOf table s e ∧
        c ∈ col ∧ row.get? c = some f ∧ ('\x7b' ∉ f ∨ '\x7d' ∉ f)) :
    order_refs tr table cols = none := by
  rcases h with h | h | ⟨s, e, col, row, c, f, hs, he, hcol, hrow, hc, hf, hbrace⟩
  · simp only [order_refs, h]
  · cases hst : listIndex table startMarker with
    | none => simp only [order_refs, hst]
    | some s => simp only [order_refs, hst, h]
  · have hext : extract_cite f = none := (extract_none_iff f).mpr hbrace
    have hrc : row_cites row col = none := by
      apply optMapList_eq_none _ col c hc
      show (match row.get? c with
        | some f => extract_cite f
        | none => none) = none
      rw [hf]
      exact hext
    have hcit : citesOf (dataOf table s e) col = none :=
      optMapList_eq_none _ (dataOf table s e) row hrow hrc
    simp only [order_refs, hs, he, hcol, hcit]

theorem c5_abort_no_output_witness :
    listIndex tabT4 endMarker = none ∧ order_refs [] tabT4 none = none :=
  ⟨by decide, c5_abort_no_output [] tabT4 none (Or.inr (Or.inl (by decide)))⟩

lemma pyReplaceFuel_nil (pat rep : Str) (hp : ¬(pat.length = 0)) (fuel : Nat) :
    pyReplaceFuel pat rep fuel [] = [] := by
  cases fuel with
  | zero =>
    show (if pat.length = 0 then rep else []) = []
    rw [if_neg hp]
  | succ f =>
    show (if pat.length = 0 then rep else []) = []
    rw [if_neg hp]

lemma leadsWith_nil_eq_false (p : Char) (ps : Str) : leadsWith (p :: ps) [] = false := rfl

lemma leadsWith_through_replace (pat rep : Str) (hp : pat ≠ []) (hr : rep ≠ [])
    (hd : ∀ c ∈ pat, c ∉ rep) :
    ∀ (fuel : Nat) (cs ps : Str), cs.length ≤ fuel → (∀ c ∈ ps, c ∈ pat) →
      leadsWith ps (pyReplaceFuel pat rep fuel cs) = true → leadsWith ps cs = true := by
  have hplen : ¬(pat.length = 0) := fun h0 => hp (List.length_eq_zero.mp h0)
  intro fuel
  induction fuel with
  | zero =>
    intro cs ps hlen hsub hlw
    cases cs with
    | nil =>
      rw [pyReplaceFuel_nil pat rep hplen] at hlw
      cases ps with
      | nil => rfl
      | cons q qs => rw [leadsWith_nil_eq_false] at hlw; cases hlw
    | cons c cs' => simp at hlen
  | succ fuel ih =>
    intro cs ps hlen hsub hlw
    cases cs with
    | nil =>
      rw [pyReplaceFuel_nil pat rep hplen] at hlw
      cases ps with
      | nil => rfl
      | cons q qs => rw [leadsWith_nil_eq_false] at hlw; cases hlw
    | cons c cs' =>
      by_cases hm : pat.length > 0 ∧ leadsWith pat (c :: cs') = true
      · have hres : pyReplaceFuel pat rep (fuel + 1) (c :: cs')
            = rep ++ pyReplaceFuel pat rep fuel ((c :: cs').drop pat.length) := by
          show (if pat.length > 0 ∧ leadsWith pat (c :: cs') = true then
              rep ++ pyReplaceFuel pat rep fuel ((c :: cs').drop pat.length)
            else if pat.length = 0 then
              rep ++ c :: pyReplaceFuel pat rep fuel cs'
            else c :: pyReplaceFuel pat rep fuel cs') = _
          rw [if_pos hm]
        rw [hres] at hlw
        cases ps with
        | nil => rfl
        | cons q qs =>
          exfalso
          cases hrep : rep with
          | nil => exact hr hrep
          | cons r rs =>
            rw [hrep] at hlw
            have hq : q ∈ pat := hsub q (List.mem_cons_self q qs)
            have hqr : ¬(q = r) := by
              intro he
              exact (hd q hq) (by rw [hrep, he]; exact List.mem_cons_self r rs)
            have hlw2 : ((q == r) && leadsWith qs
                (rs ++ pyReplaceFuel pat (r :: rs) fuel ((c :: cs').drop pat.length))) = true := hlw
            rw [Bool.and_eq_true, beq_iff_eq] at hlw2
            exact hqr hlw2.1
      · have hres : pyReplaceFuel pat rep (fuel + 1) (c :: cs')
            = c :: pyReplaceFuel pat rep fuel cs' := by
          show (if pat.length > 0 ∧ leadsWith pat (c :: cs') = true then
              rep ++ pyReplaceFuel pat rep fuel ((c :: cs').drop pat.length)
            else if pat.length = 0 then
              rep ++ c :: pyReplaceFuel pat rep fuel cs'
            else c :: pyReplaceFuel pat rep fuel cs') = _
          rw [if_neg hm, if_neg hplen]
        rw [hres] at hlw
        cases ps with
        | nil => rfl
        | cons q qs =>
          have hlw2 : ((q == c) && leadsWith qs (pyReplaceFuel pat rep fuel cs')) = true := hlw
          rw [Bool.and_eq_true] at hlw2
          have hqs : ∀ x ∈ qs, x ∈ pat := fun x hx => hsub x (List.mem_cons_of_mem q hx)
          have hcs : cs'.length ≤ fuel := by
            simp only [List.length_cons] at hlen
            omega
          have htail := ih cs' qs hcs hqs hlw2.2
          show ((q == c) && leadsWith qs cs') = true
          rw [Bool.and_eq_true]
          exact ⟨hlw2.1, htail⟩

lemma hasSub_append_alien (pat : Str) (p : Char) (ps : Str) (hpat : pat = p :: ps) :
    ∀ (rs R : Str), (∀ c ∈ rs, ¬(p = c)) → hasSub pat R = false →
      hasSub pat (rs ++ R) = false := by
  intro rs
  induction rs with
  | nil =>
    intro R _ h
    simpa using h
  | cons r rs' ih =>
    intro R hne h
    show (leadsWith pat (r :: (rs' ++ R)) || hasSub pat (rs' ++ R)) = false
    have h1 : leadsWith pat (r :: (rs' ++ R)) = false := by
      rw [hpat]
      show ((p == r) && leadsWith ps (rs' ++ R)) = false
      have : (p == r) = false := by
        rw [beq_eq_false_iff_ne]
        exact hne r (List.mem_cons_self r rs')
      rw [this, Bool.false_and]
    rw [h1, ih R (fun x hx => hne x (List.mem_cons_of_mem r hx)) h, Bool.or_false]

lemma pyReplace_no_occ_fuel (pat rep : Str) (hp : pat ≠ []) (hr : rep ≠ [])
    (hd : ∀ c ∈ pat, c ∉ rep) :
    ∀ (fuel : Nat) (f : Str), f.length ≤ fuel →
      hasSub pat (pyReplaceFuel pat rep fuel f) = false := by
  have hplen : ¬(pat.length = 0) := fun h0 => hp (List.length_eq_zero.mp h0)
  obtain ⟨p, ps, hpat⟩ : ∃ p ps, pat = p :: ps := by
    cases hpc : pat with
    | nil => exact absurd hpc hp
    | cons p ps => exact ⟨p, ps, rfl⟩
  have hempty : hasSub pat [] = false := by
    rw [hpat]
    rfl
  intro fuel
  induction fuel with
  | zero =>
    intro f hlen
    cases f with
    | nil =>
      rw [pyReplaceFuel_nil pat rep hplen]
      exact hempty
    | cons c cs => simp at hlen
  | succ fuel ih =>
    intro f hlen
    cases f with
    | nil =>
      rw [pyReplaceFuel_nil pat rep hplen]
      exact hempty
    | cons c cs =>
      by_cases hm : pat.length > 0 ∧ leadsWith pat (c :: cs) = true
      · have hres : pyReplaceFuel pat rep (fuel + 1) (c :: cs)
            = rep ++ pyReplaceFuel pat rep fuel ((c :: cs).drop pat.length) := by
          show (if pat.length > 0 ∧ leadsWith pat (c :: cs) = true then
              rep ++ pyReplaceFuel pat rep fuel ((c :: cs).drop pat.length)
            else if pat.length = 0 then
              rep ++ c :: pyReplaceFuel pat rep fuel cs
            else c :: pyReplaceFuel pat rep fuel cs) = _
          rw [if_pos hm]
        rw [hres]
        have hdlen : ((c :: cs).drop pat.length).length ≤ fuel := by
          rw [List.length_drop]
          simp only [List.length_cons] at hlen ⊢
          have hppos : pat.length > 0 := hm.1
          omega
        have hrec := ih _ hdlen
        refine hasSub_append_alien pat p ps hpat rep _ ?_ hrec
        intro cc hcc he
        have hpmem : p ∈ pat := by rw [hpat]; exact List.mem_cons_self p ps
        exact (hd p hpmem) (he ▸ hcc)
      · have hres : pyReplaceFuel pat rep (fuel + 1) (c :: cs)
            = c :: pyReplaceFuel pat rep fuel cs := by
          show (if pat.length > 0 ∧ leadsWith pat (c :: cs) = true then
              rep ++ pyReplaceFuel pat rep fuel ((c :: cs).drop pat.length)
            else if pat.length = 0 then
              rep ++ c :: pyReplaceFuel pat rep fuel cs
            else c :: pyReplaceFuel pat rep fuel cs) = _
          rw [if_neg hm, if_neg hplen]
        rw [hres]
        have hcs : cs.length ≤ fuel := by
          simp only [List.length_cons] at hlen
          omega
        have hrec := ih cs hcs
        show (leadsWith pat (c :: pyReplaceFuel pat rep fuel cs)
            || hasSub pat (pyReplaceFuel pat rep fuel cs)) = false
        rw [hrec, Bool.or_false]
        have hl : ∀ X : Str, leadsWith pat (c :: X) = ((p == c) && leadsWith ps X) := by
          intro X
          rw [hpat]
          rfl
        rw [hl]
        by_cases hpc : (p == c) = true
        · cases hB : leadsWith ps (pyReplaceFuel pat rep fuel cs) with
          | false => rw [Bool.and_false]
          | true =>
            exfalso
            have hsubpat : ∀ x ∈ ps, x ∈ pat := by
              intro x hx
              rw [hpat]
              exact List.mem_cons_of_mem p hx
            have hlead := leadsWith_through_replace pat rep hp hr hd fuel cs ps hcs hsubpat hB
            apply hm
            constructor
            · rw [hpat]
              simp
            · rw [hpat]
              show ((p == c) && leadsWith ps cs) = true
              rw [hpc, hlead, Bool.and_self]
        · have hpcf : (p == c) = false := by
            cases hB2 : (p == c) with
            | false => rfl
            | true => exact absurd hB2 hpc
          rw [hpcf, Bool.false_and]

/-- Claim C10: replacing a citation key by its rank is a global substring
replacement over the entire field text.  First conjunct: after replacing a
nonempty key by a nonempty replacement drawn from disjoint characters, no
occurrence of the key survives anywhere in the field — every occurrence was
replaced.  Second conjunct: on the field `Ax\citet{A}` the occurrence of `A`
outside the braces is replaced as well.  Third conjunct: when one key is a
substring of another (keys `A` and `AB`), the rewritten field is `1, 1B`
rather than the intended numbered list `1, 2` — the rewrite is only correct
under the claim's no-substring precondition. -/
theorem c10_replacement_is_global :
    (∀ (pat rep f : Str), pat ≠ [] → rep ≠ [] → (∀ c ∈ pat, c ∉ rep) →
      hasSub pat (pyReplace pat rep f) = false)
    ∧ replace_keys [(str "A", 1)] [str "A"] (str "Ax\\citet\x7bA\x7d")
        = str "1x\\citet\x7b1\x7d"
    ∧ rewrite_field [(str "A", 1), (str "AB", 2)] [str "A", str "AB"]
        (str "\\citep\x7bA,AB\x7d") = str "1, 1B" := by
  refine ⟨?_, by decide, by decide⟩
  intro pat rep f hp hr hd
  exact pyReplace_no_occ_fuel pat rep hp hr hd f.length f (Nat.le_refl _)

theorem c10_replacement_is_global_witness :
    (str "A" ≠ [] ∧ str "1" ≠ [] ∧ (∀ c ∈ str "A", c ∉ str "1"))
    ∧ hasSub (str "A") (pyReplace (str "A") (str "1") (str "Ax\\citet\x7bA\x7d")) = false :=
  ⟨⟨by decide, by decide, by decide⟩,
    c10_replacement_is_global.1 (str "A") (str "1") (str "Ax\\citet\x7bA\x7d")
      (by decide) (by decide) (by decide)⟩
